import Mathlib

/-!
Verification of `ros2-create-release-branches.py`.

Strings are modelled as `List Char` (`Str`).  Python string methods used by
the script (`str.removesuffix`, `str.removeprefix`, `str.replace`,
`str.startswith`) are given executable definitions with the same semantics.
Fallible Python code (code that can raise) is modelled with `Option`:
`none` stands for the raised exception.
-/

abbrev Str := List Char

/-- Python `s.removesuffix(suf)`: if `suf` is nonempty and a suffix of `s`,
drop it from the end; otherwise return `s` unchanged. -/
def removesuffix (s suf : Str) : Str :=
  if suf ≠ [] ∧ suf <:+ s then s.take (s.length - suf.length) else s

/-- Python `s.removeprefix(pre)`: if `pre` is a leading subword of `s`, drop
it from the front; otherwise return `s` unchanged. -/
def removestart (s pre : Str) : Str :=
  if pre <+: s then s.drop pre.length else s

/-- Fuel-indexed scanner implementing Python `s.replace(pat, new)` for a
nonempty `pat`: replace every non-overlapping occurrence, scanning left to
right.  Fuel at least the length of the scanned list makes the scan total;
exhausted fuel returns the remainder unchanged. -/
def strReplaceAux (pat new : Str) : Nat → Str → Str
  | 0, s => s
  | _ + 1, [] => []
  | fuel + 1, c :: rest =>
    if pat ≠ [] ∧ pat <+: (c :: rest) then
      new ++ strReplaceAux pat new fuel ((c :: rest).drop pat.length)
    else
      c :: strReplaceAux pat new fuel rest

/-- Python `s.replace(pat, new)` (for nonempty `pat`). -/
def strReplace (s pat new : Str) : Str := strReplaceAux pat new s.length s

/-- The fixed GitHub web prefix `'https://github.com/'` tested by
`url.startswith(...)` in both URL helpers. -/
def GITHUB_START : Str := "https://github.com/".toList

/-- The substring `'https://github.com'` passed to `str.replace` in
`github_raw_from_url`. -/
def GITHUB_HOST : Str := "https://github.com".toList

/-- The replacement `'https://raw.githubusercontent.com'` used in
`github_raw_from_url`. -/
def RAW_HOST : Str := "https://raw.githubusercontent.com".toList

/-- The literal `'.git'`. -/
def DOT_GIT : Str := ".git".toList

/-- Function `github_name_from_url` from the script: raise (here `none`) unless the
url starts with `https://github.com/`; otherwise
`url.removesuffix('.git').removeprefix('https://github.com/')`. -/
def github_name_from_url (url : Str) : Option Str :=
  if GITHUB_START <+: url then
    some (removestart (removesuffix url DOT_GIT) GITHUB_START)
  else
    none

/-- Function `github_raw_from_url` from the script: raise (here `none`) unless the
url starts with `https://github.com/`; otherwise
`url.replace('https://github.com', 'https://raw.githubusercontent.com') + filename`. -/
def github_raw_from_url (url filename : Str) : Option Str :=
  if GITHUB_START <+: url then
    some (strReplace url GITHUB_HOST RAW_HOST ++ filename)
  else
    none

/-! ### Data model

YAML mappings are modelled as ordered association lists (Python dicts keep
insertion order); a dict lookup `d[k]` that can raise `KeyError` becomes a
`dictGet` returning `Option`.  The records carry exactly the fields the
script reads or writes, plus the fields the documents are known to carry
and the script leaves alone.
-/

/-- Python dict lookup `d[key]` on an association list: the value at the
first matching key, `none` (a `KeyError`) when the key is absent. -/
def dictGet {α : Type} (key : Str) : List (Str × α) → Option α
  | [] => none
  | (k, v) :: rest => if k = key then some v else dictGet key rest

/-- A `doc`/`source`/`release` sub-record of a distribution.yaml entry:
the script reads `url` and writes `version`; `typ` stands for the
untouched `type` field. -/
structure SubRecord where
  typ : Option Str
  url : Str
  version : Option Str
deriving DecidableEq

/-- One entry of distribution.yaml's `repositories` mapping. -/
structure DistroEntry where
  doc : Option SubRecord
  source : Option SubRecord
  release : Option SubRecord
deriving DecidableEq

/-- The parsed distribution.yaml document. -/
structure Distribution where
  repositories : List (Str × DistroEntry)
deriving DecidableEq

/-- One entry of the ros2.repos `repositories` mapping: the script reads
`url` and writes `version`; `typ` stands for the untouched `type` field. -/
structure RepoInfo where
  typ : Option Str
  url : Str
  version : Option Str
deriving DecidableEq

/-- The parsed ros2.repos manifest. -/
structure Ros2Repos where
  repositories : List (Str × RepoInfo)
deriving DecidableEq

/-! ### Cross-reference mapper (`map_ros2_repos_to_distribution_yaml`) -/

/-- The inner loop of `map_ros2_repos_to_distribution_yaml`: scan the
distribution's packages in order for the first one accepted for the given
(already `'.git'`-stripped) manifest url, mirroring the source:
`doc_url`/`source_url` are set only when the respective sub-record exists
and its url matches; a package where both are `None` is passed over; a
package where they differ is skipped with a logged warning; otherwise the
package name and the `release` url (when present) are returned and the scan
stops (`break`). -/
def findDistroMatch (ros2_url : Str) : List (Str × DistroEntry) → Option (Str × Option Str)
  | [] => none
  | (distro_name, distro_info) :: rest =>
    let doc_url : Option Str :=
      match distro_info.doc with
      | some d => if removesuffix d.url DOT_GIT = ros2_url then some d.url else none
      | none => none
    let source_url : Option Str :=
      match distro_info.source with
      | some s => if removesuffix s.url DOT_GIT = ros2_url then some s.url else none
      | none => none
    if doc_url = none ∧ source_url = none then
      findDistroMatch ros2_url rest
    else if doc_url ≠ source_url then
      findDistroMatch ros2_url rest
    else
      some (distro_name, distro_info.release.map SubRecord.url)

/-- Function `map_ros2_repos_to_distribution_yaml` from the script: for every
manifest entry, strip a trailing `'.git'` from its url and scan the
distribution's packages; a found pair `(distro_name, release_url)` is
stored under the manifest entry's name. -/
def map_ros2_repos_to_distribution_yaml (ros2_repos : Ros2Repos) (distribution_yaml : Distribution) :
    List (Str × (Str × Option Str)) :=
  ros2_repos.repositories.filterMap fun p =>
    (findDistroMatch (removesuffix p.2.url DOT_GIT) distribution_yaml.repositories).map
      fun q => (p.1, q)

/-! ### Distribution updater (`update_distribution_yaml`) -/

/-- The two conditional writes of `update_distribution_yaml` on the selected
entry: set `doc.version` when a `doc` sub-record exists, and
`source.version` when a `source` sub-record exists. -/
def setEntryVersions (e : DistroEntry) (release_name : Str) : DistroEntry :=
  { e with
    doc := e.doc.map fun s => { s with version := some release_name },
    source := e.source.map fun s => { s with version := some release_name } }

/-- Replace the value at `key` in the `repositories` association list by its
version-updated form; `none` models the `KeyError` Python raises when the
key is absent. -/
def updateDistroRepos : List (Str × DistroEntry) → Str → Str → Option (List (Str × DistroEntry))
  | [], _, _ => none
  | (n, e) :: rest, key, release_name =>
    if n = key then some ((n, setEntryVersions e release_name) :: rest)
    else (updateDistroRepos rest key release_name).map fun l => (n, e) :: l

/-- Function `update_distribution_yaml` from the script, as a function from document
to document (`none` models the `KeyError` on a missing key). -/
def update_distribution_yaml (distribution_yaml : Distribution)
    (distro_key_name release_name : Str) : Option Distribution :=
  (updateDistroRepos distribution_yaml.repositories distro_key_name release_name).map
    Distribution.mk

/-! ### Track updater (the YAML transformation inside `update_tracks_yaml`) -/

/-- One track record of a tracks.yaml file: the script writes only
`devel_branch`; `fields` stands for the remaining, untouched fields of the
record. -/
structure TrackRecord where
  devel_branch : Option Str
  fields : List (Str × Str)
deriving DecidableEq

/-- The parsed tracks.yaml document: the `tracks` mapping plus any other
top-level keys (`extra`), which the script never touches. -/
structure TracksYaml where
  tracks : List (Str × TrackRecord)
  extra : List (Str × Str)
deriving DecidableEq

/-- Replace the record at `release_name` in a `tracks` mapping by the same
record with `devel_branch` set to `release_name`; `none` models the
`KeyError` Python raises when the track is absent. -/
def setDevelBranch : List (Str × TrackRecord) → Str → Option (List (Str × TrackRecord))
  | [], _ => none
  | (n, t) :: rest, release_name =>
    if n = release_name then
      some ((n, { t with devel_branch := some release_name }) :: rest)
    else
      (setDevelBranch rest release_name).map fun l => (n, t) :: l

/-- The pure document transformation performed by `update_tracks_yaml`:
`local_tracks_yaml['tracks'][release_name]['devel_branch'] = release_name`
(`none` models the `KeyError` on a missing track). -/
def update_tracks_yaml_transform (doc : TracksYaml) (release_name : Str) : Option TracksYaml :=
  (setDevelBranch doc.tracks release_name).map fun l => TracksYaml.mk l doc.extra

/-! ### Orchestrator: the per-repository loop of `main`

The external side effects of one iteration (clone/branch/push in
`create_source_branch`, the in-place manifest write, the in-memory
distribution update, and the clone/edit/push/PR in `update_tracks_yaml`)
are recorded, in program order, as a `LoopAction` trace tagged with the
manifest entry the iteration is processing.  The two `KeyError`s the loop
body can raise (`ros2_key_to_distro_key[name]` and
`distribution_yaml['repositories'][distro_key_name]`) become the two
`LoopErr` constructors; an error carries the trace of actions already
performed when it is raised.
-/

/-- The fixed `SKIPLIST` tuple from `main`. -/
def SKIPLIST : List Str :=
  ["eProsima/Fast-CDR".toList, "eProsima/Fast-DDS".toList,
   "eProsima/foonathan_memory_vendor".toList, "eclipse-cyclonedds/cyclonedds".toList,
   "eclipse-iceoryx/iceoryx".toList, "osrf/osrf_pycommon".toList,
   "ros/urdfdom".toList, "ros/urdfdom_headers".toList]

/-- One recorded side effect of the loop, tagged with the manifest entry
name whose iteration performed it. -/
inductive LoopAction where
  | createBranch (entry : Str) (url : Str) (release_name : Str)
  | setVersion (entry : Str) (release_name : Str)
  | updateDistro (entry : Str) (key : Str) (release_name : Str)
  | updateTracks (entry : Str) (url : Option Str) (release_name : Str)
deriving DecidableEq

/-- The manifest entry name an action was performed for. -/
def LoopAction.entryName : LoopAction → Str
  | .createBranch n _ _ => n
  | .setVersion n _ => n
  | .updateDistro n _ _ => n
  | .updateTracks n _ _ => n

/-- A fatal `KeyError` of the loop body, carrying the actions already
performed when it was raised. -/
inductive LoopErr where
  | tableKeyMissing (name : Str) (tr : List LoopAction)
  | distroKeyMissing (key : Str) (tr : List LoopAction)
deriving DecidableEq

/-- Prepend earlier actions to the trace carried by an error. -/
def LoopErr.push (a : List LoopAction) : LoopErr → LoopErr
  | .tableKeyMissing n tr => .tableKeyMissing n (a ++ tr)
  | .distroKeyMissing k tr => .distroKeyMissing k (a ++ tr)

/-- The trace carried by an error. -/
def LoopErr.trace : LoopErr → List LoopAction
  | .tableKeyMissing _ tr => tr
  | .distroKeyMissing _ tr => tr

/-- The `for name, repo_info in ros2_repos['repositories'].items():` loop of
`main`, threading the manifest entry list and the distribution document and
recording effects.  Per non-skipped entry, in program order: step 1 create
the source branch; step 2 set the entry's `version`; step 3 look up
`ros2_key_to_distro_key[name]` (a missing key raises) and apply
`update_distribution_yaml` with the found distro key (a key missing from
the distribution raises); step 4 `update_tracks_yaml` on the found release
url.  On success it returns the updated manifest entries, the updated
distribution, and the action trace. -/
def runLoop (table : List (Str × (Str × Option Str))) (release_name : Str) :
    List (Str × RepoInfo) → Distribution →
    Except LoopErr (List (Str × RepoInfo) × Distribution × List LoopAction)
  | [], dist => .ok ([], dist, [])
  | (name, repo_info) :: rest, dist =>
    if name ∈ SKIPLIST then
      match runLoop table release_name rest dist with
      | .ok (rest', dist', tr) => .ok ((name, repo_info) :: rest', dist', tr)
      | .error e => .error e
    else
      let startActs : List LoopAction :=
        [.createBranch name repo_info.url release_name, .setVersion name release_name]
      match dictGet name table with
      | none => .error (.tableKeyMissing name startActs)
      | some (dkey, rel_url) =>
        match update_distribution_yaml dist dkey release_name with
        | none => .error (.distroKeyMissing dkey startActs)
        | some dist' =>
          let acts := startActs ++
            [.updateDistro name dkey release_name, .updateTracks name rel_url release_name]
          match runLoop table release_name rest dist' with
          | .ok (rest', dist'', tr) =>
              .ok ((name, { repo_info with version := some release_name }) :: rest', dist'', acts ++ tr)
          | .error e => .error (e.push acts)


/-! ### Basic lemmas about the Python string operations -/

theorem removesuffix_append (s suf : Str) (h : suf ≠ []) :
    removesuffix (s ++ suf) suf = s := by
  have hs : suf <:+ s ++ suf := ⟨s, rfl⟩
  simp only [removesuffix, if_pos (And.intro h hs), List.length_append,
    Nat.add_sub_cancel, List.take_left]

theorem removesuffix_of_not_suffix (s suf : Str) (h : ¬ suf <:+ s) :
    removesuffix s suf = s := by
  simp only [removesuffix]
  rw [if_neg]
  intro hc
  exact h hc.2

theorem removestart_append (pre s : Str) :
    removestart (pre ++ s) pre = s := by
  have hp : pre <+: pre ++ s := ⟨s, rfl⟩
  simp only [removestart, if_pos hp, List.drop_left]

theorem strReplaceAux_of_no_occurrence (pat new : Str) :
    ∀ (n : Nat) (s : Str), ¬ pat <:+: s → strReplaceAux pat new n s = s := by
  intro n
  induction n with
  | zero => intro s _; rfl
  | succ m ih =>
    intro s hs
    cases s with
    | nil => rfl
    | cons c rest =>
      rw [strReplaceAux, if_neg,
        ih rest (fun hr => hs (hr.trans (List.suffix_cons c rest).isInfix))]
      intro hc
      exact hs hc.2.isInfix

theorem strReplaceAux_head_occurrence (pat new t : Str) (h : pat ≠ []) (n : Nat) :
    strReplaceAux pat new (n + 1) (pat ++ t) = new ++ strReplaceAux pat new n t := by
  cases pat with
  | nil => exact absurd rfl h
  | cons c p =>
    have hpre : c :: p <+: c :: (p ++ t) := ⟨t, rfl⟩
    rw [List.cons_append, strReplaceAux, if_pos (And.intro h hpre),
      List.length_cons, List.drop_succ_cons, List.drop_left]

/-! ### C5 / C6: the URL utilities -/

/-- C5: `github_name_from_url` strips a trailing `'.git'` and the leading
`'https://github.com/'`: both `'https://github.com/<name>.git'` and (when the
url does not end in `'.git'`) `'https://github.com/<name>'` map to `<name>`,
and any url not starting with `'https://github.com/'` raises (returns
`none`). -/
theorem c5_github_name_from_url (name url : Str)
    (hname : ¬ DOT_GIT <:+ GITHUB_START ++ name)
    (hurl : ¬ GITHUB_START <+: url) :
    github_name_from_url (GITHUB_START ++ name ++ DOT_GIT) = some name ∧
    github_name_from_url (GITHUB_START ++ name) = some name ∧
    github_name_from_url url = none := by
  refine ⟨?_, ?_, ?_⟩
  · have hp : GITHUB_START <+: GITHUB_START ++ name ++ DOT_GIT :=
      ⟨name ++ DOT_GIT, by simp⟩
    rw [github_name_from_url, if_pos hp, removesuffix_append _ _ (by decide),
      removestart_append]
  · have hp : GITHUB_START <+: GITHUB_START ++ name := ⟨name, rfl⟩
    rw [github_name_from_url, if_pos hp, removesuffix_of_not_suffix _ _ hname,
      removestart_append]
  · rw [github_name_from_url, if_neg hurl]

theorem c5_github_name_from_url_witness :
    github_name_from_url (GITHUB_START ++ "A/B".toList ++ DOT_GIT) = some "A/B".toList ∧
    github_name_from_url (GITHUB_START ++ "A/B".toList) = some "A/B".toList ∧
    github_name_from_url "http://github.com/A/B".toList = none :=
  c5_github_name_from_url "A/B".toList "http://github.com/A/B".toList
    (by decide) (by decide)

/-- C6 counterexample: `github_raw_from_url` uses Python `str.replace`,
which replaces every occurrence of `'https://github.com'`, not only the
host.  On the url `'https://github.com/https://github.com'` (which starts
with the required web prefix) the result differs from "rewrite the host to
the raw-content host and append the path". -/
theorem c6_counterexample :
    GITHUB_START <+: "https://github.com/https://github.com".toList ∧
    github_raw_from_url "https://github.com/https://github.com".toList "/x/y".toList ≠
      some (RAW_HOST ++ ("https://github.com/https://github.com".toList).drop GITHUB_HOST.length
        ++ "/x/y".toList) := by decide

/-- C6 (amended): for every url starting with `'https://github.com/'` in
which the substring `'https://github.com'` occurs only as the leading host,
`github_raw_from_url` rewrites that host to
`'https://raw.githubusercontent.com'` and appends the path (urls with
further occurrences of the substring get every occurrence rewritten), and
it raises (returns `none`) when the prefix is absent. -/
theorem c6_github_raw_from_url (tail path url' : Str)
    (hocc : ¬ GITHUB_HOST <:+: '/' :: tail)
    (hbad : ¬ GITHUB_START <+: url') :
    github_raw_from_url (GITHUB_START ++ tail) path
      = some (RAW_HOST ++ '/' :: tail ++ path) ∧
    github_raw_from_url url' path = none := by
  constructor
  · have hp : GITHUB_START <+: GITHUB_START ++ tail := ⟨tail, rfl⟩
    have hsplit : GITHUB_START ++ tail = GITHUB_HOST ++ ('/' :: tail) := by
      have : GITHUB_START = GITHUB_HOST ++ ['/'] := by decide
      rw [this, List.append_assoc]
      rfl
    rw [github_raw_from_url, if_pos hp, hsplit, strReplace]
    have hlen : (GITHUB_HOST ++ ('/' :: tail)).length
        = (GITHUB_HOST.length + tail.length) + 1 := by
      simp [List.length_append]
      omega
    rw [hlen, strReplaceAux_head_occurrence _ _ _ (by decide),
      strReplaceAux_of_no_occurrence _ _ _ _ hocc]
  · rw [github_raw_from_url, if_neg hbad]

theorem c6_github_raw_from_url_witness :
    github_raw_from_url (GITHUB_START ++ "A/B".toList) "/x/y".toList
      = some (RAW_HOST ++ '/' :: "A/B".toList ++ "/x/y".toList) ∧
    github_raw_from_url "ftp://github.com/A/B".toList "/x/y".toList = none :=
  c6_github_raw_from_url "A/B".toList "/x/y".toList "ftp://github.com/A/B".toList
    (by decide) (by decide)

example : github_name_from_url "https://github.com/A/B.git".toList = some "A/B".toList := by decide
example : github_name_from_url "https://github.com/A/B".toList = some "A/B".toList := by decide
example : github_name_from_url "http://github.com/A/B".toList = none := by decide
example : github_raw_from_url "https://github.com/A/B".toList "/x/y".toList
    = some "https://raw.githubusercontent.com/A/B/x/y".toList := by decide

/-! ### C1 / C10: the cross-reference mapper -/

theorem dictGet_map_table_not_mem (dist : Distribution) :
    ∀ (l : List (Str × RepoInfo)) (mname : Str), mname ∉ l.map Prod.fst →
      dictGet mname (l.filterMap fun p =>
        (findDistroMatch (removesuffix p.2.url DOT_GIT) dist.repositories).map fun q => (p.1, q))
        = none := by
  intro l
  induction l with
  | nil => intro mname _; rfl
  | cons p rest ih =>
    intro mname hm
    rw [List.map_cons, List.mem_cons, not_or] at hm
    rw [List.filterMap_cons]
    cases hf : findDistroMatch (removesuffix p.2.url DOT_GIT) dist.repositories with
    | none => exact ih mname hm.2
    | some q =>
      simp only [Option.map_some']
      rw [dictGet, if_neg (fun hx => hm.1 hx.symm)]
      exact ih mname hm.2

/-- The table built by the mapper, read at a manifest entry present under a
duplicate-free set of manifest names, is exactly the result of the inner
scan for that entry's url. -/
theorem dictGet_map_ros2_repos (m : Ros2Repos) (dist : Distribution)
    (mname : Str) (rinfo : RepoInfo)
    (hnd : (m.repositories.map Prod.fst).Nodup)
    (hm : (mname, rinfo) ∈ m.repositories) :
    dictGet mname (map_ros2_repos_to_distribution_yaml m dist)
      = findDistroMatch (removesuffix rinfo.url DOT_GIT) dist.repositories := by
  obtain ⟨l⟩ := m
  rw [map_ros2_repos_to_distribution_yaml]
  simp only at hm hnd ⊢
  induction l with
  | nil => exact absurd hm (List.not_mem_nil _)
  | cons p rest ih =>
    rw [List.map_cons, List.nodup_cons] at hnd
    rw [List.mem_cons] at hm
    rw [List.filterMap_cons]
    rcases hm with hm | hm
    · subst hm
      cases hf : findDistroMatch (removesuffix rinfo.url DOT_GIT) dist.repositories with
      | none => exact dictGet_map_table_not_mem dist rest mname hnd.1
      | some q =>
        simp only [Option.map_some']
        rw [dictGet, if_pos rfl]
    · have hne : p.1 ≠ mname := by
        intro hx
        exact hnd.1 (hx ▸ List.mem_map_of_mem Prod.fst hm)
      cases hf : findDistroMatch (removesuffix p.2.url DOT_GIT) dist.repositories with
      | none => exact ih hnd.2 hm
      | some q =>
        simp only [Option.map_some']
        rw [dictGet, if_neg hne]
        exact ih hnd.2 hm

/-- C1 counterexample: a distribution package carrying only a `source`
sub-record whose url equals the manifest entry's url up to a trailing
`'.git'` is NOT mapped: the mapper returns the empty table, so the manifest
entry `x` is not mapped to the package `p`. -/
theorem c1_counterexample :
    removesuffix "https://github.com/a/b.git".toList DOT_GIT
      = removesuffix "https://github.com/a/b".toList DOT_GIT ∧
    map_ros2_repos_to_distribution_yaml
      (Ros2Repos.mk [("x".toList,
        RepoInfo.mk none "https://github.com/a/b".toList none)])
      (Distribution.mk [("p".toList,
        DistroEntry.mk none
          (some (SubRecord.mk none "https://github.com/a/b.git".toList none)) none)])
      = [] := by decide

/-- Case analysis of one scan step: a successful scan over a cons either
succeeded on the tail, or accepted the head package, which then carries
both a `doc` and a `source` sub-record with character-identical urls whose
`'.git'`-stripped form is the scanned url. -/
theorem findDistroMatch_some_head (u dn : Str) (info : DistroEntry)
    (rest : List (Str × DistroEntry)) (n : Str) (rel : Option Str)
    (h : findDistroMatch u ((dn, info) :: rest) = some (n, rel)) :
    findDistroMatch u rest = some (n, rel) ∨
      (dn = n ∧ ∃ d s, info.doc = some d ∧ info.source = some s ∧
        d.url = s.url ∧ removesuffix s.url DOT_GIT = u) := by
  obtain ⟨odoc, osrc, orel⟩ := info
  cases odoc with
  | none =>
    cases osrc with
    | none =>
      simp only [findDistroMatch] at h
      exact Or.inl (by simpa using h)
    | some s =>
      simp only [findDistroMatch] at h
      split_ifs at h <;>
        first
          | exact Or.inl h
          | simp_all
  | some d =>
    cases osrc with
    | none =>
      simp only [findDistroMatch] at h
      split_ifs at h <;>
        first
          | exact Or.inl h
          | simp_all
    | some s =>
      simp only [findDistroMatch] at h
      split_ifs at h <;>
        first
          | exact Or.inl h
          | (rw [Option.some_inj, Prod.mk.injEq] at h
             exact Or.inr ⟨h.1, d, s, rfl, rfl,
               Option.some_inj.mp (not_not.mp ‹¬ some d.url ≠ some s.url›),
               ‹removesuffix s.url DOT_GIT = u›⟩)
          | simp_all

/-- Any package accepted by the scan lies in the scanned list and carries
`doc` and `source` sub-records with character-identical urls whose
`'.git'`-stripped form is the scanned url. -/
theorem findDistroMatch_some_mem (u : Str) :
    ∀ (l : List (Str × DistroEntry)) (pkg : Str) (rel : Option Str),
      findDistroMatch u l = some (pkg, rel) →
      ∃ info d s, (pkg, info) ∈ l ∧ info.doc = some d ∧ info.source = some s ∧
        d.url = s.url ∧ removesuffix s.url DOT_GIT = u := by
  intro l
  induction l with
  | nil => intro pkg rel hf; simp [findDistroMatch] at hf
  | cons q rest ih =>
    intro pkg rel hf
    obtain ⟨dn, info⟩ := q
    rcases findDistroMatch_some_head _ _ _ _ _ _ hf with h' | ⟨hdn, d, s, h1, h2, h3, h4⟩
    · obtain ⟨i, d, s, hm', hh1, hh2, hh3, hh4⟩ := ih _ _ h'
      exact ⟨i, d, s, List.mem_cons_of_mem _ hm', hh1, hh2, hh3, hh4⟩
    · subst hdn
      exact ⟨info, d, s, List.mem_cons_self _ _, h1, h2, h3, h4⟩

/-- A package the scan passes over (one on which a singleton scan finds
nothing) does not affect the scan of the packages after it. -/
theorem findDistroMatch_skip_head (u : Str) (q : Str × DistroEntry)
    (l : List (Str × DistroEntry)) (h : findDistroMatch u [q] = none) :
    findDistroMatch u (q :: l) = findDistroMatch u l := by
  obtain ⟨qn, qi⟩ := q
  simp only [findDistroMatch] at h ⊢
  split_ifs at h ⊢
  · rfl
  · rfl

/-- Passed-over packages at the front of the distribution do not affect
the scan: the first accepted package wins wherever it sits. -/
theorem findDistroMatch_skip_append (u : Str) (pre l : List (Str × DistroEntry))
    (h : ∀ q ∈ pre, findDistroMatch u [q] = none) :
    findDistroMatch u (pre ++ l) = findDistroMatch u l := by
  induction pre with
  | nil => rfl
  | cons q rest ih =>
    rw [List.cons_append,
      findDistroMatch_skip_head u q (rest ++ l) (h q (List.mem_cons_self _ _))]
    exact ih (fun p hp => h p (List.mem_cons_of_mem _ hp))

/-- C1 (amended): a package is matched to a manifest entry only if its
`doc.url` and `source.url` are both present and character-identical, with
the common url equal, up to a trailing `'.git'`, to the manifest entry's
url (second conjunct, for every entry of the returned table); and first
match wins: for a manifest entry (under duplicate-free manifest names) and
a distribution in which every package before `(dname, info)` is passed
over for the entry's stripped url, where `info` carries `doc` and `source`
sub-records with character-identical urls matching the entry's url up to a
trailing `'.git'`, the returned table maps the manifest entry's name to
`dname` paired with that package's release url (first conjunct). -/
theorem c1_map_ros2_repos_to_distribution_yaml :
    (∀ (m : Ros2Repos) (dist : Distribution) (mname : Str) (rinfo : RepoInfo)
        (dname : Str) (info : DistroEntry) (d s : SubRecord)
        (pre rest : List (Str × DistroEntry)),
      (m.repositories.map Prod.fst).Nodup →
      (mname, rinfo) ∈ m.repositories →
      dist.repositories = pre ++ (dname, info) :: rest →
      (∀ q ∈ pre, findDistroMatch (removesuffix rinfo.url DOT_GIT) [q] = none) →
      info.doc = some d → info.source = some s → d.url = s.url →
      removesuffix s.url DOT_GIT = removesuffix rinfo.url DOT_GIT →
      dictGet mname (map_ros2_repos_to_distribution_yaml m dist)
        = some (dname, info.release.map SubRecord.url)) ∧
    (∀ (m : Ros2Repos) (dist : Distribution) (mname pkg : Str) (rel : Option Str),
      (mname, (pkg, rel)) ∈ map_ros2_repos_to_distribution_yaml m dist →
      ∃ rinfo info d s, (mname, rinfo) ∈ m.repositories ∧
        (pkg, info) ∈ dist.repositories ∧
        info.doc = some d ∧ info.source = some s ∧ d.url = s.url ∧
        removesuffix s.url DOT_GIT = removesuffix rinfo.url DOT_GIT) := by
  constructor
  · intro m dist mname rinfo dname info d s pre rest hnd hm hdist hpre hdoc hsrc
      hagree hmatch
    rw [dictGet_map_ros2_repos m dist mname rinfo hnd hm, hdist,
      findDistroMatch_skip_append _ _ _ hpre, findDistroMatch, hdoc, hsrc]
    simp only [hagree, hmatch, if_pos rfl]
    rw [if_neg (by simp), if_neg (by simp)]
  · intro m dist mname pkg rel hmem
    rw [map_ros2_repos_to_distribution_yaml, List.mem_filterMap] at hmem
    obtain ⟨p, hpm, hp⟩ := hmem
    cases hf : findDistroMatch (removesuffix p.2.url DOT_GIT) dist.repositories with
    | none => rw [hf] at hp; exact absurd hp (by simp)
    | some q =>
      rw [hf] at hp
      simp only [Option.map_some', Option.some_inj, Prod.mk.injEq] at hp
      rw [hp.2] at hf
      obtain ⟨info, d, s, hmem', h1, h2, h3, h4⟩ := findDistroMatch_some_mem _ _ _ _ hf
      refine ⟨p.2, info, d, s, ?_, hmem', h1, h2, h3, h4⟩
      rw [← hp.1]
      exact hpm

theorem c1_map_ros2_repos_to_distribution_yaml_witness :
    dictGet "x".toList
      (map_ros2_repos_to_distribution_yaml
        (Ros2Repos.mk [("x".toList,
          RepoInfo.mk none "https://github.com/a/b".toList none)])
        (Distribution.mk
          [("q0".toList, DistroEntry.mk none
            (some (SubRecord.mk none "https://github.com/z/z".toList none)) none),
           ("p".toList, DistroEntry.mk
            (some (SubRecord.mk none "https://github.com/a/b.git".toList none))
            (some (SubRecord.mk none "https://github.com/a/b.git".toList none))
            (some (SubRecord.mk none "https://github.com/rel/a/b".toList none)))]))
      = some ("p".toList, some "https://github.com/rel/a/b".toList) ∧
    (∃ rinfo info d s,
      ("x".toList, rinfo) ∈
        (Ros2Repos.mk [("x".toList,
          RepoInfo.mk none "https://github.com/a/b".toList none)]).repositories ∧
      ("p".toList, info) ∈
        (Distribution.mk
          [("q0".toList, DistroEntry.mk none
            (some (SubRecord.mk none "https://github.com/z/z".toList none)) none),
           ("p".toList, DistroEntry.mk
            (some (SubRecord.mk none "https://github.com/a/b.git".toList none))
            (some (SubRecord.mk none "https://github.com/a/b.git".toList none))
            (some (SubRecord.mk none "https://github.com/rel/a/b".toList none)))]).repositories ∧
      info.doc = some d ∧ info.source = some s ∧ d.url = s.url ∧
      removesuffix s.url DOT_GIT = removesuffix rinfo.url DOT_GIT) :=
  ⟨c1_map_ros2_repos_to_distribution_yaml.1
    (Ros2Repos.mk [("x".toList, RepoInfo.mk none "https://github.com/a/b".toList none)])
    (Distribution.mk
      [("q0".toList, DistroEntry.mk none
        (some (SubRecord.mk none "https://github.com/z/z".toList none)) none),
       ("p".toList, DistroEntry.mk
        (some (SubRecord.mk none "https://github.com/a/b.git".toList none))
        (some (SubRecord.mk none "https://github.com/a/b.git".toList none))
        (some (SubRecord.mk none "https://github.com/rel/a/b".toList none)))])
    "x".toList (RepoInfo.mk none "https://github.com/a/b".toList none)
    "p".toList
    (DistroEntry.mk
      (some (SubRecord.mk none "https://github.com/a/b.git".toList none))
      (some (SubRecord.mk none "https://github.com/a/b.git".toList none))
      (some (SubRecord.mk none "https://github.com/rel/a/b".toList none)))
    (SubRecord.mk none "https://github.com/a/b.git".toList none)
    (SubRecord.mk none "https://github.com/a/b.git".toList none)
    [("q0".toList, DistroEntry.mk none
      (some (SubRecord.mk none "https://github.com/z/z".toList none)) none)]
    []
    (by decide) (by decide) (by decide) (by decide) (by decide) (by decide)
    (by decide) (by decide),
   c1_map_ros2_repos_to_distribution_yaml.2
    (Ros2Repos.mk [("x".toList, RepoInfo.mk none "https://github.com/a/b".toList none)])
    (Distribution.mk
      [("q0".toList, DistroEntry.mk none
        (some (SubRecord.mk none "https://github.com/z/z".toList none)) none),
       ("p".toList, DistroEntry.mk
        (some (SubRecord.mk none "https://github.com/a/b.git".toList none))
        (some (SubRecord.mk none "https://github.com/a/b.git".toList none))
        (some (SubRecord.mk none "https://github.com/rel/a/b".toList none)))])
    "x".toList "p".toList (some "https://github.com/rel/a/b".toList)
    (by decide)⟩

/-- C10: a distribution package with only a `source` sub-record, or only a
`doc` sub-record, is skipped by the scan even when its present url equals
the manifest url up to a trailing `'.git'` (the scan just moves on — no
exception); and any package the scan does accept has both `doc` and
`source` sub-records with character-identical url strings. -/
theorem c10_map_only_matches_agreeing_urls :
    (∀ (u n : Str) (s : SubRecord) (r : Option SubRecord)
        (rest : List (Str × DistroEntry)),
      removesuffix s.url DOT_GIT = u →
      findDistroMatch u ((n, DistroEntry.mk none (some s) r) :: rest)
        = findDistroMatch u rest) ∧
    (∀ (u n : Str) (d : SubRecord) (r : Option SubRecord)
        (rest : List (Str × DistroEntry)),
      removesuffix d.url DOT_GIT = u →
      findDistroMatch u ((n, DistroEntry.mk (some d) none r) :: rest)
        = findDistroMatch u rest) ∧
    (∀ (m : Ros2Repos) (dist : Distribution) (mname pkg : Str) (rel : Option Str),
      (mname, (pkg, rel)) ∈ map_ros2_repos_to_distribution_yaml m dist →
      ∃ info d s, (pkg, info) ∈ dist.repositories ∧
        info.doc = some d ∧ info.source = some s ∧ d.url = s.url) := by
  refine ⟨?_, ?_, ?_⟩
  · intro u n s r rest h
    simp [findDistroMatch, h]
  · intro u n d r rest h
    simp [findDistroMatch, h]
  · intro m dist mname pkg rel hmem
    rw [map_ros2_repos_to_distribution_yaml, List.mem_filterMap] at hmem
    obtain ⟨p, -, hp⟩ := hmem
    cases hf : findDistroMatch (removesuffix p.2.url DOT_GIT) dist.repositories with
    | none => rw [hf] at hp; exact absurd hp (by simp)
    | some q =>
      rw [hf] at hp
      simp only [Option.map_some', Option.some_inj, Prod.mk.injEq] at hp
      rw [hp.2] at hf
      obtain ⟨info, d, s, hmem', h1, h2, h3, -⟩ := findDistroMatch_some_mem _ _ _ _ hf
      exact ⟨info, d, s, hmem', h1, h2, h3⟩

theorem c10_map_only_matches_agreeing_urls_witness :
    findDistroMatch "https://github.com/a/b".toList
        [("p".toList, DistroEntry.mk none
          (some (SubRecord.mk none "https://github.com/a/b.git".toList none)) none)]
      = findDistroMatch "https://github.com/a/b".toList [] ∧
    findDistroMatch "https://github.com/a/b".toList
        [("p".toList, DistroEntry.mk
          (some (SubRecord.mk none "https://github.com/a/b.git".toList none)) none none)]
      = findDistroMatch "https://github.com/a/b".toList [] ∧
    ∃ info d s,
      ("q".toList, info) ∈
        [("q".toList, DistroEntry.mk
          (some (SubRecord.mk none "https://github.com/c/d".toList none))
          (some (SubRecord.mk none "https://github.com/c/d".toList none)) none)] ∧
      info.doc = some d ∧ info.source = some s ∧ d.url = s.url :=
  ⟨c10_map_only_matches_agreeing_urls.1 "https://github.com/a/b".toList "p".toList
      (SubRecord.mk none "https://github.com/a/b.git".toList none) none [] (by decide),
   c10_map_only_matches_agreeing_urls.2.1 "https://github.com/a/b".toList "p".toList
      (SubRecord.mk none "https://github.com/a/b.git".toList none) none [] (by decide),
   c10_map_only_matches_agreeing_urls.2.2
      (Ros2Repos.mk [("x".toList, RepoInfo.mk none "https://github.com/c/d".toList none)])
      (Distribution.mk [("q".toList, DistroEntry.mk
        (some (SubRecord.mk none "https://github.com/c/d".toList none))
        (some (SubRecord.mk none "https://github.com/c/d".toList none)) none)])
      "x".toList "q".toList none (by decide)⟩

/-! ### C7 / C8: the distribution updater -/

/-- The list-level behaviour of `updateDistroRepos` at a present key: the
first entry under the key is replaced by its version-updated form and
nothing else moves. -/
theorem updateDistroRepos_dictGet (key release_name : Str) :
    ∀ (l : List (Str × DistroEntry)) (e : DistroEntry), dictGet key l = some e →
      ∃ pre post, l = pre ++ (key, e) :: post ∧ (∀ p ∈ pre, p.1 ≠ key) ∧
        updateDistroRepos l key release_name
          = some (pre ++ (key, setEntryVersions e release_name) :: post) := by
  intro l
  induction l with
  | nil => intro e h; exact absurd h (by simp [dictGet])
  | cons p rest ih =>
    obtain ⟨n, v⟩ := p
    intro e h
    rw [dictGet] at h
    by_cases hn : n = key
    · subst hn
      rw [if_pos rfl, Option.some_inj] at h
      subst h
      refine ⟨[], rest, rfl, by simp, ?_⟩
      rw [updateDistroRepos, if_pos rfl]
      rfl
    · rw [if_neg hn] at h
      obtain ⟨pre, post, heq, hpre, hupd⟩ := ih e h
      refine ⟨(n, v) :: pre, post, by rw [heq]; rfl, ?_, ?_⟩
      · intro p hp
        rcases List.mem_cons.mp hp with hp | hp
        · rw [hp]; exact hn
        · exact hpre p hp
      · rw [updateDistroRepos, if_neg hn, hupd]
        rfl

/-- C7: for a key present in the distribution's `repositories` mapping,
`update_distribution_yaml` replaces (in place) that entry by one whose
`doc.version` (if a `doc` sub-record exists) and `source.version` (if a
`source` sub-record exists) are the release name, leaving `release` and all
other entries alone, and is a no-op on the whole document when neither
sub-record exists. -/
theorem c7_update_distribution_yaml (dist : Distribution) (key release_name : Str)
    (e : DistroEntry) (h : dictGet key dist.repositories = some e) :
    ∃ pre e' post,
      dist.repositories = pre ++ (key, e) :: post ∧
      (∀ p ∈ pre, p.1 ≠ key) ∧
      update_distribution_yaml dist key release_name
        = some (Distribution.mk (pre ++ (key, e') :: post)) ∧
      (e.doc = none → e'.doc = none) ∧
      (∀ s, e.doc = some s →
        e'.doc = some (SubRecord.mk s.typ s.url (some release_name))) ∧
      (e.source = none → e'.source = none) ∧
      (∀ s, e.source = some s →
        e'.source = some (SubRecord.mk s.typ s.url (some release_name))) ∧
      e'.release = e.release ∧
      (e.doc = none ∧ e.source = none →
        update_distribution_yaml dist key release_name = some dist) := by
  obtain ⟨pre, post, heq, hpre, hupd⟩ := updateDistroRepos_dictGet key release_name _ e h
  refine ⟨pre, setEntryVersions e release_name, post, heq, hpre, ?_, ?_, ?_, ?_, ?_, rfl, ?_⟩
  · rw [update_distribution_yaml, hupd]; rfl
  · intro hd; simp [setEntryVersions, hd]
  · intro s hs; simp [setEntryVersions, hs]
  · intro hs; simp [setEntryVersions, hs]
  · intro s hs; simp [setEntryVersions, hs]
  · intro ⟨hd, hs⟩
    have hid : setEntryVersions e release_name = e := by
      obtain ⟨od, os, orl⟩ := e
      simp only at hd hs
      subst hd; subst hs
      rfl
    rw [update_distribution_yaml, hupd, hid, ← heq]
    rfl

theorem c7_update_distribution_yaml_witness :
    ∃ pre e' post,
      ([(("p".toList : Str), DistroEntry.mk
          (some (SubRecord.mk none "u".toList none))
          (some (SubRecord.mk none "u".toList (some "old".toList)))
          (some (SubRecord.mk none "r".toList none)))]
        : List (Str × DistroEntry)) = pre ++ ("p".toList,
          DistroEntry.mk
            (some (SubRecord.mk none "u".toList none))
            (some (SubRecord.mk none "u".toList (some "old".toList)))
            (some (SubRecord.mk none "r".toList none))) :: post ∧
      (∀ p ∈ pre, p.1 ≠ "p".toList) ∧
      update_distribution_yaml
          (Distribution.mk [("p".toList, DistroEntry.mk
            (some (SubRecord.mk none "u".toList none))
            (some (SubRecord.mk none "u".toList (some "old".toList)))
            (some (SubRecord.mk none "r".toList none)))])
          "p".toList "kappa".toList
        = some (Distribution.mk (pre ++ ("p".toList, e') :: post)) ∧
      ((DistroEntry.mk
          (some (SubRecord.mk none "u".toList none))
          (some (SubRecord.mk none "u".toList (some "old".toList)))
          (some (SubRecord.mk none "r".toList none))).doc = none → e'.doc = none) ∧
      (∀ s, (DistroEntry.mk
          (some (SubRecord.mk none "u".toList none))
          (some (SubRecord.mk none "u".toList (some "old".toList)))
          (some (SubRecord.mk none "r".toList none))).doc = some s →
        e'.doc = some (SubRecord.mk s.typ s.url (some "kappa".toList))) ∧
      ((DistroEntry.mk
          (some (SubRecord.mk none "u".toList none))
          (some (SubRecord.mk none "u".toList (some "old".toList)))
          (some (SubRecord.mk none "r".toList none))).source = none → e'.source = none) ∧
      (∀ s, (DistroEntry.mk
          (some (SubRecord.mk none "u".toList none))
          (some (SubRecord.mk none "u".toList (some "old".toList)))
          (some (SubRecord.mk none "r".toList none))).source = some s →
        e'.source = some (SubRecord.mk s.typ s.url (some "kappa".toList))) ∧
      e'.release = (DistroEntry.mk
          (some (SubRecord.mk none "u".toList none))
          (some (SubRecord.mk none "u".toList (some "old".toList)))
          (some (SubRecord.mk none "r".toList none))).release ∧
      ((DistroEntry.mk
          (some (SubRecord.mk none "u".toList none))
          (some (SubRecord.mk none "u".toList (some "old".toList)))
          (some (SubRecord.mk none "r".toList none))).doc = none ∧
        (DistroEntry.mk
          (some (SubRecord.mk none "u".toList none))
          (some (SubRecord.mk none "u".toList (some "old".toList)))
          (some (SubRecord.mk none "r".toList none))).source = none →
        update_distribution_yaml
          (Distribution.mk [("p".toList, DistroEntry.mk
            (some (SubRecord.mk none "u".toList none))
            (some (SubRecord.mk none "u".toList (some "old".toList)))
            (some (SubRecord.mk none "r".toList none)))])
          "p".toList "kappa".toList
          = some (Distribution.mk [("p".toList, DistroEntry.mk
            (some (SubRecord.mk none "u".toList none))
            (some (SubRecord.mk none "u".toList (some "old".toList)))
            (some (SubRecord.mk none "r".toList none)))])) :=
  c7_update_distribution_yaml
    (Distribution.mk [("p".toList, DistroEntry.mk
      (some (SubRecord.mk none "u".toList none))
      (some (SubRecord.mk none "u".toList (some "old".toList)))
      (some (SubRecord.mk none "r".toList none)))])
    "p".toList "kappa".toList
    (DistroEntry.mk
      (some (SubRecord.mk none "u".toList none))
      (some (SubRecord.mk none "u".toList (some "old".toList)))
      (some (SubRecord.mk none "r".toList none)))
    (by decide)

/-- Setting the version fields to the same release name twice is the same
as setting them once. -/
theorem setEntryVersions_idem (e : DistroEntry) (release_name : Str) :
    setEntryVersions (setEntryVersions e release_name) release_name
      = setEntryVersions e release_name := by
  obtain ⟨od, os, orl⟩ := e
  cases od <;> cases os <;> rfl

/-- List-level idempotence of the distribution update. -/
theorem updateDistroRepos_idem (key release_name : Str) :
    ∀ (l l' : List (Str × DistroEntry)),
      updateDistroRepos l key release_name = some l' →
      updateDistroRepos l' key release_name = some l' := by
  intro l
  induction l with
  | nil => intro l' h; exact absurd h (by simp [updateDistroRepos])
  | cons p rest ih =>
    obtain ⟨n, e⟩ := p
    intro l' h
    rw [updateDistroRepos] at h
    by_cases hn : n = key
    · rw [if_pos hn, Option.some_inj] at h
      subst h
      rw [updateDistroRepos, if_pos hn, setEntryVersions_idem]
    · rw [if_neg hn] at h
      cases hr : updateDistroRepos rest key release_name with
      | none => rw [hr] at h; exact absurd h (by simp)
      | some rest' =>
        rw [hr, Option.map_some', Option.some_inj] at h
        subst h
        rw [updateDistroRepos, if_neg hn, ih rest' hr, Option.map_some']

/-- C8: applying `update_distribution_yaml` twice with the same key and the
same release name yields the same document as applying it once — the
second (successful) application returns its input unchanged. -/
theorem c8_update_distribution_yaml_idempotent (dist dist' : Distribution)
    (key release_name : Str)
    (h : update_distribution_yaml dist key release_name = some dist') :
    update_distribution_yaml dist' key release_name = some dist' := by
  rw [update_distribution_yaml] at h ⊢
  cases hu : updateDistroRepos dist.repositories key release_name with
  | none => rw [hu] at h; exact absurd h (by simp)
  | some l' =>
    rw [hu, Option.map_some', Option.some_inj] at h
    subst h
    rw [updateDistroRepos_idem key release_name _ l' hu, Option.map_some']

theorem c8_update_distribution_yaml_idempotent_witness :
    update_distribution_yaml
        (Distribution.mk [("p".toList, DistroEntry.mk
          (some (SubRecord.mk none "u".toList none))
          (some (SubRecord.mk none "u".toList none)) none)])
        "p".toList "kappa".toList
      = some (Distribution.mk [("p".toList, DistroEntry.mk
          (some (SubRecord.mk none "u".toList (some "kappa".toList)))
          (some (SubRecord.mk none "u".toList (some "kappa".toList))) none)]) ∧
    update_distribution_yaml
        (Distribution.mk [("p".toList, DistroEntry.mk
          (some (SubRecord.mk none "u".toList (some "kappa".toList)))
          (some (SubRecord.mk none "u".toList (some "kappa".toList))) none)])
        "p".toList "kappa".toList
      = some (Distribution.mk [("p".toList, DistroEntry.mk
          (some (SubRecord.mk none "u".toList (some "kappa".toList)))
          (some (SubRecord.mk none "u".toList (some "kappa".toList))) none)]) :=
  ⟨by decide,
   c8_update_distribution_yaml_idempotent
    (Distribution.mk [("p".toList, DistroEntry.mk
      (some (SubRecord.mk none "u".toList none))
      (some (SubRecord.mk none "u".toList none)) none)])
    (Distribution.mk [("p".toList, DistroEntry.mk
      (some (SubRecord.mk none "u".toList (some "kappa".toList)))
      (some (SubRecord.mk none "u".toList (some "kappa".toList))) none)])
    "p".toList "kappa".toList (by decide)⟩

/-! ### C9: the track-file transformation -/

/-- List-level behaviour of `setDevelBranch` at a present track name: the
first record under the name gets `devel_branch` set to the release name,
with its other fields and all other records untouched. -/
theorem setDevelBranch_dictGet (release_name : Str) :
    ∀ (l : List (Str × TrackRecord)) (t : TrackRecord),
      dictGet release_name l = some t →
      ∃ pre post, l = pre ++ (release_name, t) :: post ∧
        (∀ p ∈ pre, p.1 ≠ release_name) ∧
        setDevelBranch l release_name
          = some (pre ++ (release_name, TrackRecord.mk (some release_name) t.fields) :: post) := by
  intro l
  induction l with
  | nil => intro t h; exact absurd h (by simp [dictGet])
  | cons p rest ih =>
    obtain ⟨n, v⟩ := p
    intro t h
    rw [dictGet] at h
    by_cases hn : n = release_name
    · subst hn
      rw [if_pos rfl, Option.some_inj] at h
      subst h
      exact ⟨[], rest, rfl, by simp, by rw [setDevelBranch, if_pos rfl]; rfl⟩
    · rw [if_neg hn] at h
      obtain ⟨pre, post, heq, hpre, hupd⟩ := ih t h
      refine ⟨(n, v) :: pre, post, by rw [heq]; rfl, ?_, ?_⟩
      · intro p hp
        rcases List.mem_cons.mp hp with hp | hp
        · rw [hp]; exact hn
        · exact hpre p hp
      · rw [setDevelBranch, if_neg hn, hupd]
        rfl

/-- C9: on a parsed track document in which `tracks[release]` exists, the
transformation performed by `update_tracks_yaml` sets that track's
`devel_branch` to the release name and changes nothing else: the track's
other fields, every other track, and every other top-level key of the
document are returned verbatim. -/
theorem c9_update_tracks_yaml_transform (doc : TracksYaml) (release_name : Str)
    (t : TrackRecord) (h : dictGet release_name doc.tracks = some t) :
    ∃ pre post,
      doc.tracks = pre ++ (release_name, t) :: post ∧
      (∀ p ∈ pre, p.1 ≠ release_name) ∧
      update_tracks_yaml_transform doc release_name
        = some (TracksYaml.mk
            (pre ++ (release_name, TrackRecord.mk (some release_name) t.fields) :: post)
            doc.extra) := by
  obtain ⟨pre, post, heq, hpre, hupd⟩ := setDevelBranch_dictGet release_name _ t h
  exact ⟨pre, post, heq, hpre, by rw [update_tracks_yaml_transform, hupd, Option.map_some']⟩

theorem c9_update_tracks_yaml_transform_witness :
    ∃ pre post,
      ([("jazzy".toList, TrackRecord.mk (some "rolling".toList) [("name".toList, "x".toList)]),
        ("kappa".toList, TrackRecord.mk (some "rolling".toList) [("name".toList, "y".toList)])]
        : List (Str × TrackRecord))
        = pre ++ ("kappa".toList,
            TrackRecord.mk (some "rolling".toList) [("name".toList, "y".toList)]) :: post ∧
      (∀ p ∈ pre, p.1 ≠ "kappa".toList) ∧
      update_tracks_yaml_transform
          (TracksYaml.mk
            [("jazzy".toList, TrackRecord.mk (some "rolling".toList) [("name".toList, "x".toList)]),
             ("kappa".toList, TrackRecord.mk (some "rolling".toList) [("name".toList, "y".toList)])]
            [("extra_key".toList, "extra_val".toList)])
          "kappa".toList
        = some (TracksYaml.mk
            (pre ++ ("kappa".toList,
              TrackRecord.mk (some "kappa".toList)
                [("name".toList, "y".toList)]) :: post)
            [("extra_key".toList, "extra_val".toList)]) :=
  c9_update_tracks_yaml_transform
    (TracksYaml.mk
      [("jazzy".toList, TrackRecord.mk (some "rolling".toList) [("name".toList, "x".toList)]),
       ("kappa".toList, TrackRecord.mk (some "rolling".toList) [("name".toList, "y".toList)])]
      [("extra_key".toList, "extra_val".toList)])
    "kappa".toList
    (TrackRecord.mk (some "rolling".toList) [("name".toList, "y".toList)])
    (by decide)

/-! ### C2 / C3 / C4: the per-repository loop -/

/-- C3: when the loop completes without error, every entry of the resulting
manifest whose name is not on the skip-list has its `version` field equal
to the release name. -/
theorem c3_versions_set_after_loop (table : List (Str × (Str × Option Str)))
    (release_name : Str) :
    ∀ (entries : List (Str × RepoInfo)) (dist : Distribution)
      (entries' : List (Str × RepoInfo)) (dist' : Distribution) (tr : List LoopAction)
      (name : Str) (rinfo : RepoInfo),
      runLoop table release_name entries dist = .ok (entries', dist', tr) →
      (name, rinfo) ∈ entries' → name ∉ SKIPLIST →
      rinfo.version = some release_name := by
  intro entries
  induction entries with
  | nil =>
    intro dist e' d' tr name rinfo h hmem _
    rw [runLoop] at h
    simp only [Except.ok.injEq, Prod.mk.injEq] at h
    rw [← h.1] at hmem
    exact absurd hmem (List.not_mem_nil _)
  | cons p rest ih =>
    obtain ⟨n, ri⟩ := p
    intro dist e' d' tr name rinfo h hmem hskip
    simp only [runLoop] at h
    by_cases hsk : n ∈ SKIPLIST
    · rw [if_pos hsk] at h
      cases hrec : runLoop table release_name rest dist with
      | error e => rw [hrec] at h; exact absurd h (by simp)
      | ok res =>
        obtain ⟨rest', dist2, tr2⟩ := res
        rw [hrec] at h
        simp only [Except.ok.injEq, Prod.mk.injEq] at h
        rw [← h.1] at hmem
        rcases List.mem_cons.mp hmem with hm | hm
        · rw [Prod.mk.injEq] at hm
          rw [hm.1] at hskip
          exact absurd hsk hskip
        · exact ih dist rest' dist2 tr2 name rinfo hrec hm hskip
    · rw [if_neg hsk] at h
      cases hlk : dictGet n table with
      | none => rw [hlk] at h; exact absurd h (by simp)
      | some pr =>
        obtain ⟨dkey, rel_url⟩ := pr
        rw [hlk] at h
        simp only at h
        cases hud : update_distribution_yaml dist dkey release_name with
        | none => rw [hud] at h; exact absurd h (by simp)
        | some dist1 =>
          rw [hud] at h
          simp only at h
          cases hrec : runLoop table release_name rest dist1 with
          | error e => rw [hrec] at h; exact absurd h (by simp)
          | ok res =>
            obtain ⟨rest', dist2, tr2⟩ := res
            rw [hrec] at h
            simp only [Except.ok.injEq, Prod.mk.injEq] at h
            rw [← h.1] at hmem
            rcases List.mem_cons.mp hmem with hm | hm
            · rw [Prod.mk.injEq] at hm
              rw [hm.2]
            · exact ih dist1 rest' dist2 tr2 name rinfo hrec hm hskip

theorem c3_versions_set_after_loop_witness :
    (RepoInfo.mk none "https://github.com/o/x".toList (some "kappa".toList)).version
      = some "kappa".toList :=
  c3_versions_set_after_loop
    [("x".toList, ("p".toList, some "https://github.com/rel/x".toList))]
    "kappa".toList
    [("x".toList, RepoInfo.mk none "https://github.com/o/x".toList none)]
    (Distribution.mk [("p".toList,
      DistroEntry.mk none (some (SubRecord.mk none "https://github.com/o/x".toList none)) none)])
    [("x".toList, RepoInfo.mk none "https://github.com/o/x".toList (some "kappa".toList))]
    (Distribution.mk [("p".toList,
      DistroEntry.mk none
        (some (SubRecord.mk none "https://github.com/o/x".toList (some "kappa".toList))) none)])
    [.createBranch "x".toList "https://github.com/o/x".toList "kappa".toList,
     .setVersion "x".toList "kappa".toList,
     .updateDistro "x".toList "p".toList "kappa".toList,
     .updateTracks "x".toList (some "https://github.com/rel/x".toList) "kappa".toList]
    "x".toList
    (RepoInfo.mk none "https://github.com/o/x".toList (some "kappa".toList))
    (by rfl) (by simp) (by decide)

/-- C4: a successful loop performs no action for any skip-listed entry
(every recorded action belongs to a non-skip-listed manifest entry), and
the output manifest keeps every entry's name in place and returns every
skip-listed entry's record verbatim. -/
theorem c4_skiplist_enforcement (table : List (Str × (Str × Option Str)))
    (release_name : Str) :
    ∀ (entries : List (Str × RepoInfo)) (dist : Distribution)
      (entries' : List (Str × RepoInfo)) (dist' : Distribution) (tr : List LoopAction),
      runLoop table release_name entries dist = .ok (entries', dist', tr) →
      (∀ a ∈ tr, a.entryName ∉ SKIPLIST) ∧
      List.Forall₂ (fun p q : Str × RepoInfo => p.1 = q.1 ∧ (p.1 ∈ SKIPLIST → q = p))
        entries entries' := by
  intro entries
  induction entries with
  | nil =>
    intro dist e' d' tr h
    rw [runLoop] at h
    simp only [Except.ok.injEq, Prod.mk.injEq] at h
    rw [← h.1, ← h.2.2]
    exact ⟨by simp, List.Forall₂.nil⟩
  | cons p rest ih =>
    obtain ⟨n, ri⟩ := p
    intro dist e' d' tr h
    simp only [runLoop] at h
    by_cases hsk : n ∈ SKIPLIST
    · rw [if_pos hsk] at h
      cases hrec : runLoop table release_name rest dist with
      | error e => rw [hrec] at h; exact absurd h (by simp)
      | ok res =>
        obtain ⟨rest', dist2, tr2⟩ := res
        rw [hrec] at h
        simp only [Except.ok.injEq, Prod.mk.injEq] at h
        obtain ⟨htr, hfa⟩ := ih dist rest' dist2 tr2 hrec
        rw [← h.1, ← h.2.2]
        exact ⟨htr, List.Forall₂.cons ⟨rfl, fun _ => rfl⟩ hfa⟩
    · rw [if_neg hsk] at h
      cases hlk : dictGet n table with
      | none => rw [hlk] at h; exact absurd h (by simp)
      | some pr =>
        obtain ⟨dkey, rel_url⟩ := pr
        rw [hlk] at h
        simp only at h
        cases hud : update_distribution_yaml dist dkey release_name with
        | none => rw [hud] at h; exact absurd h (by simp)
        | some dist1 =>
          rw [hud] at h
          simp only at h
          cases hrec : runLoop table release_name rest dist1 with
          | error e => rw [hrec] at h; exact absurd h (by simp)
          | ok res =>
            obtain ⟨rest', dist2, tr2⟩ := res
            rw [hrec] at h
            simp only [Except.ok.injEq, Prod.mk.injEq] at h
            obtain ⟨htr, hfa⟩ := ih dist1 rest' dist2 tr2 hrec
            rw [← h.1, ← h.2.2]
            refine ⟨?_, List.Forall₂.cons ⟨rfl, fun hmem => absurd hmem hsk⟩ hfa⟩
            intro a ha
            rcases List.mem_append.mp ha with ha | ha
            · rcases (by simpa using ha :
                  a = LoopAction.createBranch n ri.url release_name ∨
                  a = LoopAction.setVersion n release_name ∨
                  a = LoopAction.updateDistro n dkey release_name ∨
                  a = LoopAction.updateTracks n rel_url release_name)
                with rfl | rfl | rfl | rfl <;> exact hsk
            · exact htr a ha

theorem c4_skiplist_enforcement_witness :
    (∀ a ∈ [LoopAction.createBranch "x".toList "https://github.com/o/x".toList "kappa".toList,
            LoopAction.setVersion "x".toList "kappa".toList,
            LoopAction.updateDistro "x".toList "p".toList "kappa".toList,
            LoopAction.updateTracks "x".toList (some "https://github.com/rel/x".toList)
              "kappa".toList],
       a.entryName ∉ SKIPLIST) ∧
    List.Forall₂ (fun p q : Str × RepoInfo => p.1 = q.1 ∧ (p.1 ∈ SKIPLIST → q = p))
      [("ros/urdfdom".toList, RepoInfo.mk none "https://github.com/ros/urdfdom".toList none),
       ("x".toList, RepoInfo.mk none "https://github.com/o/x".toList none)]
      [("ros/urdfdom".toList, RepoInfo.mk none "https://github.com/ros/urdfdom".toList none),
       ("x".toList, RepoInfo.mk none "https://github.com/o/x".toList (some "kappa".toList))] :=
  c4_skiplist_enforcement
    [("x".toList, ("p".toList, some "https://github.com/rel/x".toList))]
    "kappa".toList
    [("ros/urdfdom".toList, RepoInfo.mk none "https://github.com/ros/urdfdom".toList none),
     ("x".toList, RepoInfo.mk none "https://github.com/o/x".toList none)]
    (Distribution.mk [("p".toList,
      DistroEntry.mk none (some (SubRecord.mk none "https://github.com/o/x".toList none)) none)])
    [("ros/urdfdom".toList, RepoInfo.mk none "https://github.com/ros/urdfdom".toList none),
     ("x".toList, RepoInfo.mk none "https://github.com/o/x".toList (some "kappa".toList))]
    (Distribution.mk [("p".toList,
      DistroEntry.mk none
        (some (SubRecord.mk none "https://github.com/o/x".toList (some "kappa".toList))) none)])
    [LoopAction.createBranch "x".toList "https://github.com/o/x".toList "kappa".toList,
     LoopAction.setVersion "x".toList "kappa".toList,
     LoopAction.updateDistro "x".toList "p".toList "kappa".toList,
     LoopAction.updateTracks "x".toList (some "https://github.com/rel/x".toList) "kappa".toList]
    (by rfl)

/-- C2 counterexample: with an empty cross-reference table, the single
non-skip-listed manifest entry `x` hits the fatal lookup error, but the
error's trace shows that the branch-creation effect (and the manifest
version mark) for `x` had already been performed before the error was
raised — the error does not precede branch creation. -/
theorem c2_counterexample :
    runLoop [] "kappa".toList
        [("x".toList, RepoInfo.mk none "https://github.com/o/x".toList none)]
        (Distribution.mk [])
      = .error (.tableKeyMissing "x".toList
          [.createBranch "x".toList "https://github.com/o/x".toList "kappa".toList,
           .setVersion "x".toList "kappa".toList]) ∧
    LoopAction.createBranch "x".toList "https://github.com/o/x".toList "kappa".toList ∈
      [LoopAction.createBranch "x".toList "https://github.com/o/x".toList "kappa".toList,
       LoopAction.setVersion "x".toList "kappa".toList] :=
  ⟨rfl, List.mem_cons_self _ _⟩

/-- C2 (amended): a manifest entry not on the skip-list with no entry in
the cross-reference table makes the loop fail with a fatal lookup error —
no graceful skip — raised in that entry's own iteration *after* the
branch-creation and version-mark effects for that entry (they are the last
two actions of the error's trace; no earlier action belongs to that entry)
and before any distribution or track update for it. -/
theorem c2_missing_table_entry (table : List (Str × (Str × Option Str)))
    (release_name : Str) :
    ∀ (entries : List (Str × RepoInfo)) (dist : Distribution),
      ((∃ name rinfo, (name, rinfo) ∈ entries ∧ name ∉ SKIPLIST ∧
          dictGet name table = none) →
        ∃ e, runLoop table release_name entries dist = .error e) ∧
      (∀ (name : Str) (tr : List LoopAction),
        runLoop table release_name entries dist = .error (.tableKeyMissing name tr) →
        dictGet name table = none ∧ name ∉ SKIPLIST ∧
        ∃ tr₀ rinfo, (name, rinfo) ∈ entries ∧ (∀ a ∈ tr₀, a.entryName ≠ name) ∧
          tr = tr₀ ++ [.createBranch name rinfo.url release_name,
                       .setVersion name release_name]) := by
  intro entries
  induction entries with
  | nil =>
    intro dist
    constructor
    · rintro ⟨name, rinfo, hmem, -, -⟩
      exact absurd hmem (List.not_mem_nil _)
    · intro name tr h
      rw [runLoop] at h
      exact absurd h (by simp)
  | cons p rest ih =>
    obtain ⟨n, ri⟩ := p
    intro dist
    constructor
    · rintro ⟨name, rinfo, hmem, hskip, hnone⟩
      cases hr : runLoop table release_name ((n, ri) :: rest) dist with
      | error e => exact ⟨e, rfl⟩
      | ok res =>
        exfalso
        obtain ⟨rest0, dist0, tr0⟩ := res
        simp only [runLoop] at hr
        by_cases hsk : n ∈ SKIPLIST
        · rw [if_pos hsk] at hr
          have hmem' : (name, rinfo) ∈ rest := by
            rcases List.mem_cons.mp hmem with hm | hm
            · rw [Prod.mk.injEq] at hm
              rw [hm.1] at hskip
              exact absurd hsk hskip
            · exact hm
          obtain ⟨e, he⟩ := (ih dist).1 ⟨name, rinfo, hmem', hskip, hnone⟩
          rw [he] at hr
          exact absurd hr (by simp)
        · rw [if_neg hsk] at hr
          cases hlk : dictGet n table with
          | none => rw [hlk] at hr; exact absurd hr (by simp)
          | some pr =>
            obtain ⟨dkey, rel_url⟩ := pr
            rw [hlk] at hr
            simp only at hr
            have hne : name ≠ n := by
              intro hx
              rw [hx, hlk] at hnone
              exact Option.noConfusion hnone
            have hmem' : (name, rinfo) ∈ rest := by
              rcases List.mem_cons.mp hmem with hm | hm
              · rw [Prod.mk.injEq] at hm
                exact absurd hm.1 hne
              · exact hm
            cases hud : update_distribution_yaml dist dkey release_name with
            | none => rw [hud] at hr; exact absurd hr (by simp)
            | some dist1 =>
              rw [hud] at hr
              simp only at hr
              obtain ⟨e, he⟩ := (ih dist1).1 ⟨name, rinfo, hmem', hskip, hnone⟩
              rw [he] at hr
              exact absurd hr (by simp)
    · intro name tr h
      simp only [runLoop] at h
      by_cases hsk : n ∈ SKIPLIST
      · rw [if_pos hsk] at h
        cases hrec : runLoop table release_name rest dist with
        | ok res =>
          obtain ⟨a, b, c⟩ := res
          rw [hrec] at h
          exact absurd h (by simp)
        | error e =>
          rw [hrec] at h
          simp only [Except.error.injEq] at h
          rw [h] at hrec
          obtain ⟨h1, h2, tr₀, rinfo, hmem, hnm, htr⟩ := (ih dist).2 name tr hrec
          exact ⟨h1, h2, tr₀, rinfo, List.mem_cons_of_mem _ hmem, hnm, htr⟩
      · rw [if_neg hsk] at h
        cases hlk : dictGet n table with
        | none =>
          rw [hlk] at h
          simp only [Except.error.injEq, LoopErr.tableKeyMissing.injEq] at h
          obtain ⟨rfl, rfl⟩ := h
          exact ⟨hlk, hsk, [], ri, List.mem_cons_self _ _, by simp, by simp⟩
        | some pr =>
          obtain ⟨dkey, rel_url⟩ := pr
          rw [hlk] at h
          simp only at h
          cases hud : update_distribution_yaml dist dkey release_name with
          | none =>
            rw [hud] at h
            exact absurd h (by simp)
          | some dist1 =>
            rw [hud] at h
            simp only at h
            cases hrec : runLoop table release_name rest dist1 with
            | ok res =>
              obtain ⟨a, b, c⟩ := res
              rw [hrec] at h
              exact absurd h (by simp)
            | error e =>
              rw [hrec] at h
              cases e with
              | distroKeyMissing k tr' => exact absurd h (by simp [LoopErr.push])
              | tableKeyMissing n' tr' =>
                simp only [LoopErr.push, Except.error.injEq,
                  LoopErr.tableKeyMissing.injEq] at h
                obtain ⟨rfl, rfl⟩ := h
                obtain ⟨h1, h2, tr₀, rinfo, hmem, hnm, htr⟩ := (ih dist1).2 _ _ hrec
                have hne : n ≠ n' := by
                  intro hx
                  rw [hx, h1] at hlk
                  exact Option.noConfusion hlk
                refine ⟨h1, h2,
                  [LoopAction.createBranch n ri.url release_name,
                   LoopAction.setVersion n release_name,
                   LoopAction.updateDistro n dkey release_name,
                   LoopAction.updateTracks n rel_url release_name] ++ tr₀,
                  rinfo, List.mem_cons_of_mem _ hmem, ?_, ?_⟩
                · intro a ha
                  rcases List.mem_append.mp ha with ha | ha
                  · rcases (by simpa using ha :
                        a = LoopAction.createBranch n ri.url release_name ∨
                        a = LoopAction.setVersion n release_name ∨
                        a = LoopAction.updateDistro n dkey release_name ∨
                        a = LoopAction.updateTracks n rel_url release_name)
                      with rfl | rfl | rfl | rfl <;> exact hne
                  · exact hnm a ha
                · rw [htr]
                  simp

theorem c2_missing_table_entry_witness :
    (∃ e, runLoop [] "kappa".toList
        [("x".toList, RepoInfo.mk none "https://github.com/o/x".toList none)]
        (Distribution.mk []) = .error e) ∧
    (dictGet "x".toList ([] : List (Str × (Str × Option Str))) = none ∧
     "x".toList ∉ SKIPLIST ∧
     ∃ tr₀ rinfo,
       ("x".toList, rinfo) ∈
         [("x".toList, RepoInfo.mk none "https://github.com/o/x".toList none)] ∧
       (∀ a ∈ tr₀, a.entryName ≠ "x".toList) ∧
       ([LoopAction.createBranch "x".toList "https://github.com/o/x".toList "kappa".toList,
         LoopAction.setVersion "x".toList "kappa".toList] : List LoopAction)
         = tr₀ ++ [.createBranch "x".toList rinfo.url "kappa".toList,
                   .setVersion "x".toList "kappa".toList]) :=
  ⟨(c2_missing_table_entry [] "kappa".toList
      [("x".toList, RepoInfo.mk none "https://github.com/o/x".toList none)]
      (Distribution.mk [])).1
      ⟨"x".toList, RepoInfo.mk none "https://github.com/o/x".toList none,
        List.mem_cons_self _ _, by decide, rfl⟩,
   (c2_missing_table_entry [] "kappa".toList
      [("x".toList, RepoInfo.mk none "https://github.com/o/x".toList none)]
      (Distribution.mk [])).2
      "x".toList
      [LoopAction.createBranch "x".toList "https://github.com/o/x".toList "kappa".toList,
       LoopAction.setVersion "x".toList "kappa".toList]
      rfl⟩
